import Mathlib

/-!
# Verification of the GNNTransformer data pipeline (`src/models/data_utils/utils.py`)

This file embeds the deterministic data-preparation pipeline of the repository
(`sort_nodes_and_edges_bfs`, `sort_nodes_and_edges`, `get_gridX`, `load_rawdata`)
as Lean definitions and proves / refutes the frozen specification claims about it.

Modelling conventions:
* Python/NumPy floating-point scalars are modelled as exact rationals `ℚ`;
  where float-specific behaviour matters (the un-guarded division by the total
  histogram count in `load_rawdata`, which produces IEEE `NaN` on an all-zero
  histogram) we use the IEEE-style scalar type `QF` below, which adjoins
  `inf`, `neginf` and `nan` to the finite rationals.  Signed zeros are not
  distinguished.
* `np.pi` is a fixed positive constant; every azimuth quantity in the source
  is a rational multiple of it, and all binning comparisons are invariant
  under a positive scaling of the azimuth axis.  The histogram and grid
  definitions therefore take the value standing for `np.pi` as an explicit
  positive rational parameter `p`.
* The node positions handed to the sequencers are triples; `np.linalg.norm`
  is the square root of the squared Euclidean norm, and `np.argsort` of the
  norms orders exactly as `np.argsort` of the squared norms (square root is
  strictly monotone on nonnegatives), so the BFS sequencer model sorts by the
  squared norm to stay inside `ℚ`.
* `np.argsort` with its default `kind='quicksort'` runs introsort, which
  falls back to a stable insertion sort for ranges of fewer than 16 elements;
  the model uses a stable insertion sort, which agrees with NumPy on every
  input whose length is below that cutoff (all concrete inputs used here) and
  returns a valid permutation in general.  `np.lexsort` is documented stable.
-/

namespace GNNT

/-! ## IEEE-style scalars -/

/-- An IEEE-754-style scalar: a finite rational, a signed infinity, or NaN.
Signed zeros are not distinguished.  This models the float arithmetic that
`torch` performs in the normalization step of `load_rawdata`
(`ray_data = ray_data / torch.sum(ray_data) / area`), where division by a
zero total must produce `NaN` rather than raise. -/
inductive QF where
  | fin (q : ℚ)
  | inf
  | neginf
  | nan
deriving DecidableEq

/-- IEEE-style addition on `QF` (`inf + neginf = nan`, `nan` propagates). -/
def qfAdd : QF → QF → QF
  | .nan, _ => .nan
  | _, .nan => .nan
  | .fin a, .fin b => .fin (a + b)
  | .inf, .neginf => .nan
  | .neginf, .inf => .nan
  | .inf, _ => .inf
  | _, .inf => .inf
  | .neginf, _ => .neginf
  | _, .neginf => .neginf

/-- IEEE-style multiplication on `QF` (`inf * 0 = nan`, `nan` propagates). -/
def qfMul : QF → QF → QF
  | .nan, _ => .nan
  | _, .nan => .nan
  | .fin a, .fin b => .fin (a * b)
  | .inf, .inf => .inf
  | .inf, .neginf => .neginf
  | .neginf, .inf => .neginf
  | .neginf, .neginf => .inf
  | .inf, .fin b => if b = 0 then .nan else if 0 < b then .inf else .neginf
  | .fin a, .inf => if a = 0 then .nan else if 0 < a then .inf else .neginf
  | .neginf, .fin b => if b = 0 then .nan else if 0 < b then .neginf else .inf
  | .fin a, .neginf => if a = 0 then .nan else if 0 < a then .neginf else .inf

/-- IEEE-style division on `QF`: `0 / 0 = nan`, `a / 0 = ±inf` for finite
nonzero `a` (the sign of the unmodelled signed zero is taken positive),
`nan` propagates, `inf / inf = nan`. -/
def qfDiv : QF → QF → QF
  | .nan, _ => .nan
  | _, .nan => .nan
  | .fin a, .fin b =>
      if b = 0 then (if a = 0 then .nan else if 0 < a then .inf else .neginf)
      else .fin (a / b)
  | .fin _, .inf => .fin 0
  | .fin _, .neginf => .fin 0
  | .inf, .inf => .nan
  | .inf, .neginf => .nan
  | .neginf, .inf => .nan
  | .neginf, .neginf => .nan
  | .inf, .fin b => if 0 ≤ b then .inf else .neginf
  | .neginf, .fin b => if 0 ≤ b then .neginf else .inf

/-- Sum of a list of `QF` scalars (models `torch.sum`; exact, so the
summation order is irrelevant). -/
def qfSum (l : List QF) : QF := l.foldr qfAdd (.fin 0)

/-! ## Histogram binning (`np.histogram2d` with explicit edge arrays) -/

/-- Bin index of a value against an increasing list of bin edges, following
`np.histogram2d` semantics: bin `i` is the half-open interval
`[edges[i], edges[i+1])`, except that the rightmost bin also includes its
right edge; values outside the full range are not counted. -/
def findBin : List ℚ → ℚ → Option ℕ
  | [], _ => none
  | [_], _ => none
  | e0 :: e1 :: rest, v =>
      if v < e0 then none
      else if v < e1 then some 0
      else
        match rest with
        | [] => if v = e1 then some 0 else none
        | _ :: _ => (findBin (e1 :: rest) v).map (· + 1)

/-- `np.linspace lo hi (n+1)`: the `n+1` equally spaced edges of `n` bins
over `[lo, hi]` (exact-rational model of the float edge array). -/
def linEdges (lo hi : ℚ) (n : ℕ) : List ℚ :=
  (List.range (n + 1)).map (fun k => lo + (hi - lo) * k / n)

/-- `np.histogram2d xs phis (bins := [x_edges, phi_edges])` of `load_rawdata`
(lines 105–110 of `utils.py`), flattened in C (x-bin major) order exactly as
`H.reshape(-1, 1)` does: `x_edges = linspace (-1) 1 (sX+1)` and
`phi_edges = linspace (-π) π (sPhi+1)`, with `p` standing for `np.pi`.
Entry `i * sPhi + j` is the number of input pairs whose first component
falls in x-bin `i` and whose second component falls in φ-bin `j`. -/
def hist2d (p : ℚ) (sX sPhi : ℕ) (pts : List (ℚ × ℚ)) : List ℕ :=
  (List.range sX).flatMap (fun i =>
    (List.range sPhi).map (fun j =>
      (pts.filter (fun s =>
        findBin (linEdges (-1) 1 sX) s.1 == some i &&
        findBin (linEdges (-p) p sPhi) s.2 == some j)).length))

/-- The histogram-count stage of `load_rawdata` (lines 97–110 of `utils.py`):
from each 4-field row only fields 0 and 1 are used (`x = rawdata[:,0]`,
field 1 is the stored azimuth), line 99 computes `phi = rawdata[:,1] - np.pi`,
and line 110 histograms the pair `(x, phi)` — i.e. the *offset* azimuth.
A sample is the pair (field 0, field 1); `p` stands for `np.pi`. -/
def rayCounts (p : ℚ) (sX sPhi : ℕ) (samples : List (ℚ × ℚ)) : List ℕ :=
  hist2d p sX sPhi (samples.map (fun s => (s.1, s.2 - p)))

/-- Modelled from the spec: the histogram as the specification describes it,
binning the *original* field-1 value (`φ_raw`, pre-offset) against the same
`[-π, π]` edges.  This definition follows the spec's words, to be compared
with `rayCounts`, which is translated from the source. -/
def rayCountsSpecRaw (p : ℚ) (sX sPhi : ℕ) (samples : List (ℚ × ℚ)) : List ℕ :=
  hist2d p sX sPhi samples

/-- The normalization stage of `load_rawdata` (lines 111–116 of `utils.py`):
`area = 4π / (sizeX * sizePhi)` and
`ray_data = ray_data / torch.sum(ray_data) / area`, evaluated in IEEE-style
arithmetic (`QF`), so that a zero total produces `nan` entries instead of
raising.  `p` stands for `np.pi`. -/
def rayDataNorm (p : ℚ) (sX sPhi : ℕ) (samples : List (ℚ × ℚ)) : List QF :=
  let H := rayCounts p sX sPhi samples
  let total : ℚ := (H.map (fun (h : ℕ) => (h : ℚ))).sum
  let area : ℚ := 4 * p / ((sX : ℚ) * (sPhi : ℚ))
  H.map (fun (h : ℕ) => qfDiv (qfDiv (.fin (h : ℚ)) (.fin total)) (.fin area))

/-- Number of rows of the subsample returned by `load_rawdata`
(line 119 of `utils.py`): `raw_num = min(8192, raw_X.shape[0])`.
`np.random.choice(n, raw_num, replace=False)` always succeeds since
`raw_num ≤ n`; in particular for `n = 0` it returns an empty index array,
so the subsample has shape `[0, 3]` and nothing raises. -/
def subsampleLen (n : ℕ) : ℕ := min 8192 n

/-! ## Grid generation (`get_gridX`) -/

/-- The `(pos_x, pos_phi)` coordinates of `get_gridX` (lines 73–78 of
`utils.py`) in the flattened row-major order of line 82 (`i` varies slower
than `j`): `i_idx = arange W / W`, `j_idx = arange H / H`,
`pos_x = i_grid * 2 - 1`, `pos_phi = (j_grid * 2 - 1) * π`, with `p`
standing for `np.pi`.  `torch.arange 0` is empty, so a zero dimension
yields an empty grid (no error is raised anywhere in `get_gridX`).
The `y`/`z` reconstruction of lines 79–81 consumes these two coordinates
and is not needed by the claims about this function. -/
def gridXPhi (p : ℚ) (w h : ℕ) : List (ℚ × ℚ) :=
  (List.range w).flatMap (fun (i : ℕ) =>
    (List.range h).map (fun (j : ℕ) =>
      (((i : ℚ) / (w : ℚ)) * 2 - 1, (((j : ℚ) / (h : ℚ)) * 2 - 1) * p)))

/-! ## Adjacency building (`sort_nodes_and_edges_bfs`, lines 32–36) -/

/-- The adjacency map of `sort_nodes_and_edges_bfs`
(`adjacency = defaultdict(list); for edge in edges: adjacency[src].append(dst)`).
A `defaultdict` accepts every key, so this is a total function: no id
validation of any kind is performed while building it. -/
def buildAdjacency (edges : List (ℕ × ℕ)) : ℕ → List ℕ :=
  edges.foldl (fun adj e => fun s => if s = e.1 then adj s ++ [e.2] else adj s)
    (fun _ => [])

/-! ## Stable argsort -/

/-- Insert an (index, key) pair into a sorted list, after every element whose
key is `le`-below-or-equal the new key: the insertion step of a stable
insertion sort. -/
def stableInsert (le : α → α → Bool) (x : ℕ × α) : List (ℕ × α) → List (ℕ × α)
  | [] => [x]
  | y :: ys => if le y.2 x.2 then y :: stableInsert le x ys else x :: y :: ys

/-- Stable insertion sort of (index, key) pairs, processing the pairs in
their given order so that equal keys keep their original relative order. -/
def sortPairs (le : α → α → Bool) (l : List (ℕ × α)) : List (ℕ × α) :=
  l.foldl (fun acc x => stableInsert le x acc) []

/-- Stable argsort: the indices `0, …, keys.length - 1` reordered so that
their keys are `le`-ascending, ties kept in index order.  Models NumPy's
indirect sorts as explained in the module docstring. -/
def stableArgsortBy (le : α → α → Bool) (keys : List α) : List ℕ :=
  (sortPairs le keys.enum).map Prod.fst

/-- Boolean `≤` on `ℚ` (the comparison `np.argsort` performs on the
computed distances). -/
def qleB (a b : ℚ) : Bool := decide (a ≤ b)

/-- Squared Euclidean norm of a position triple.  `np.linalg.norm` computes
its square root; `np.argsort` of the norms equals `np.argsort` of the
squared norms because the square root is strictly monotone on nonnegatives,
so the sequencer model sorts by this exact rational key. -/
def sqNorm (v : ℚ × ℚ × ℚ) : ℚ := v.1 * v.1 + v.2.1 * v.2.1 + v.2.2 * v.2.2

/-! ## BFS traversal (`sort_nodes_and_edges_bfs`, lines 38–54) -/

/-- One fuel-indexed run of the seeded BFS of `sort_nodes_and_edges_bfs`:
iterate over the distance-ranked `seeds`; an unvisited seed starts a FIFO
traversal; dequeued nodes are appended to the output; outgoing neighbours
are marked visited and enqueued, in adjacency-list order, when first seen.
The accumulator is kept reversed.  Fuel only needs to exceed the number of
loop steps (`bfsRun_sound` below shows `2 * N + edges.length + 1` is always
enough for in-range inputs). -/
def bfsRun (adj : ℕ → List ℕ) : ℕ → List ℕ → List ℕ → Finset ℕ → List ℕ → List ℕ
  | 0, _, _, _, acc => acc.reverse
  | f + 1, seeds, [], vis, acc =>
      match seeds with
      | [] => acc.reverse
      | s :: rest =>
          if s ∈ vis then bfsRun adj f rest [] vis acc
          else bfsRun adj f rest [s] (insert s vis) acc
  | f + 1, seeds, c :: q, vis, acc =>
      let st := (adj c).foldl
        (fun pr nb => if nb ∈ pr.2 then pr else (pr.1 ++ [nb], insert nb pr.2))
        (q, vis)
      bfsRun adj f seeds st.1 st.2 (c :: acc)

/-- `sort_nodes_and_edges_bfs` (lines 13–54 of `utils.py`): distances from
the origin, a ranking of the node ids by distance, adjacency from the edge
list, then seeded BFS.  Positions are rational triples, edges are
(src, dst) pairs of node ids. -/
def sort_nodes_and_edges_bfs (pos : List (ℚ × ℚ × ℚ)) (edges : List (ℕ × ℕ)) :
    List ℕ :=
  let n := pos.length
  let seeds := stableArgsortBy qleB (pos.map sqNorm)
  let adj := buildAdjacency edges
  bfsRun adj (2 * n + edges.length + 1) seeds [] ∅ []

/-! ## Real-valued spherical keys (`sort_nodes_and_edges`, lines 56–70) -/

/-- `np.arctan2 z y`: the angle in `(-π, π]` of the point `(y, z)`, i.e. the
argument of the complex number `y + z·i` (and `0` at the origin, matching
NumPy). -/
noncomputable def atan2 (z y : ℝ) : ℝ := Complex.arg ⟨y, z⟩

/-- Python's float `%` for a positive modulus: `a % b = a - b·⌊a/b⌋`, the
representative in `[0, b)`. -/
noncomputable def realMod (a b : ℝ) : ℝ := a - b * ((⌊a / b⌋ : ℤ) : ℝ)

/-- The 3-key tuple of `sort_nodes_and_edges`:
`r = sqrt(x² + y² + z²)`, the x-coordinate, and
`phi = arctan2(z, y) % (2π)`. -/
noncomputable def sphericalKey (v : ℝ × ℝ × ℝ) : ℝ × ℝ × ℝ :=
  (Real.sqrt (v.1 ^ 2 + v.2.1 ^ 2 + v.2.2 ^ 2), v.1,
    realMod (atan2 v.2.2 v.2.1) (2 * Real.pi))

/-- Lexicographic comparison of key triples, primary first component
(`r`), then second (`x`), then third (`phi`) — the order `np.lexsort`
realizes when handed the keys `(phi, x, r)` with `r` last/primary. -/
def lexLe3 (a b : ℝ × ℝ × ℝ) : Prop :=
  a.1 < b.1 ∨ (a.1 = b.1 ∧ (a.2.1 < b.2.1 ∨ (a.2.1 = b.2.1 ∧ a.2.2 ≤ b.2.2)))

/-- `sort_nodes_and_edges` (lines 56–70 of `utils.py`): the stable argsort
of the nodes by their spherical key triples.  `np.lexsort` is a stable
indirect sort; the Boolean comparator `le` stands for the IEEE comparison
of key triples and is required by the theorems below to agree with the
real order `lexLe3`. -/
noncomputable def sort_nodes_and_edges (le : ℝ × ℝ × ℝ → ℝ × ℝ × ℝ → Bool)
    (pos : List (ℝ × ℝ × ℝ)) : List ℕ :=
  stableArgsortBy le (pos.map sphericalKey)

/-! ## Helper lemmas -/

/-- Unfolding `buildAdjacency`: the fold with an arbitrary starting map. -/
lemma buildAdjacency_foldl (edges : List (ℕ × ℕ)) :
    ∀ (g : ℕ → List ℕ) (s : ℕ),
      (edges.foldl (fun adj e => fun t => if t = e.1 then adj t ++ [e.2] else adj t) g) s
        = g s ++ (edges.filter (fun e => e.1 == s)).map Prod.snd := by
  induction edges with
  | nil => intro g s; simp
  | cons e rest ih =>
      intro g s
      simp only [List.foldl_cons, List.filter_cons]
      rw [ih]
      by_cases hes : e.1 = s
      · subst hes
        simp
      · have : (e.1 == s) = false := by simpa using hes
        simp [this, Ne.symm hes]

/-- Shifting both the bin edges and the value by the same constant does not
change the bin index. -/
lemma findBin_shift (c : ℚ) : ∀ (edges : List ℚ) (v : ℚ),
    findBin (edges.map (fun e => e + c)) (v + c) = findBin edges v := by
  intro edges
  induction edges with
  | nil => intro v; rfl
  | cons e0 rest ih =>
      cases rest with
      | nil => intro v; rfl
      | cons e1 rest' =>
          intro v
          cases rest' with
          | nil =>
              simp only [List.map_cons, List.map_nil, findBin,
                add_lt_add_iff_right, add_left_inj]
          | cons e2 rest'' =>
              have ih' := ih v
              simp only [List.map_cons, findBin, add_lt_add_iff_right] at ih' ⊢
              rw [ih']

/-- The `[-π, π]` azimuth edge array is the `[0, 2π]` edge array shifted
down by `π`. -/
lemma linEdges_shift (p : ℚ) (n : ℕ) :
    linEdges (-p) p n = (linEdges 0 (2 * p) n).map (fun e => e + (-p)) := by
  simp only [linEdges, List.map_map]
  apply List.map_congr_left
  intro k _
  simp only [Function.comp_apply]
  ring

/-- Finite-by-finite `QF` division with a nonzero divisor is exact rational
division. -/
lemma qfDiv_fin_fin (a b : ℚ) (hb : b ≠ 0) :
    qfDiv (.fin a) (.fin b) = .fin (a / b) := by
  simp [qfDiv, hb]

/-- Summing a list of finite `QF` values is the finite sum. -/
lemma qfSum_map_fin {α : Type} (f : α → ℚ) (l : List α) :
    qfSum (l.map (fun x => QF.fin (f x))) = .fin ((l.map f).sum) := by
  induction l with
  | nil => rfl
  | cons a l ih =>
      simp only [List.map_cons, List.sum_cons]
      show qfAdd (QF.fin (f a)) (qfSum (l.map (fun x => QF.fin (f x)))) = _
      rw [ih]
      rfl

/-- `nan` absorbs on the right of `qfAdd`. -/
lemma qfAdd_nan (x : QF) : qfAdd x .nan = .nan := by
  cases x <;> rfl

/-- `nan` absorbs on the left of `qfAdd`. -/
lemma qfAdd_nan_left (x : QF) : qfAdd .nan x = .nan := by
  cases x <;> rfl

/-- A nonempty all-`nan` list sums to `nan`. -/
lemma qfSum_all_nan : ∀ (l : List QF), l ≠ [] → (∀ r ∈ l, r = QF.nan) →
    qfSum l = .nan := by
  intro l
  induction l with
  | nil => intro h; exact absurd rfl h
  | cons a l ih =>
      intro _ hall
      have ha : a = QF.nan := hall a (List.mem_cons_self a l)
      subst ha
      exact qfAdd_nan_left _

/-- The flattened 2-D histogram always has exactly `sX * sPhi` entries
(this is why the defensive shape check of line 112 of `utils.py` never
fires). -/
lemma hist2d_length (p : ℚ) (sX sPhi : ℕ) (pts : List (ℚ × ℚ)) :
    (hist2d p sX sPhi pts).length = sX * sPhi := by
  simp only [hist2d, List.length_flatMap, Function.comp_def, List.length_map,
    List.length_range, List.map_const', List.sum_replicate, smul_eq_mul]

/-! ## Generic facts about the stable argsort -/

/-- Inserting an element permutes to consing it. -/
lemma stableInsert_perm {α : Type} (le : α → α → Bool) (x : ℕ × α) :
    ∀ l : List (ℕ × α), (stableInsert le x l).Perm (x :: l) := by
  intro l
  induction l with
  | nil => simp [stableInsert]
  | cons y ys ih =>
      rw [stableInsert]
      by_cases h : le y.2 x.2
      · rw [if_pos h]
        exact (ih.cons y).trans (List.Perm.swap x y ys)
      · rw [if_neg h]

/-- The insertion fold permutes to appending the input list. -/
lemma sortPairs_foldl_perm {α : Type} (le : α → α → Bool) :
    ∀ (l acc : List (ℕ × α)),
      (l.foldl (fun acc x => stableInsert le x acc) acc).Perm (acc ++ l) := by
  intro l
  induction l with
  | nil => intro acc; simp
  | cons x xs ih =>
      intro acc
      simp only [List.foldl_cons]
      refine (ih (stableInsert le x acc)).trans ?_
      refine ((stableInsert_perm le x acc).append_right xs).trans ?_
      simpa using List.perm_middle.symm

/-- The stable sort is a permutation of its input. -/
lemma sortPairs_perm {α : Type} (le : α → α → Bool) (l : List (ℕ × α)) :
    (sortPairs le l).Perm l := by
  simpa using sortPairs_foldl_perm le l []

/-- The stable argsort returns a permutation of `0, …, keys.length - 1`,
for every comparator. -/
lemma stableArgsortBy_perm {α : Type} (le : α → α → Bool) (keys : List α) :
    (stableArgsortBy le keys).Perm (List.range keys.length) := by
  have h := (sortPairs_perm le keys.enum).map Prod.fst
  rwa [List.enum_map_fst] at h

/-- Inserting into a sorted-and-stable list of pairs whose indices are all
below the inserted index preserves sortedness and stability. -/
lemma stableInsert_pairwise {α : Type} (le : α → α → Bool)
    (htrans : ∀ a b c, le a b = true → le b c = true → le a c = true)
    (htot : ∀ a b, le a b = true ∨ le b a = true)
    (x : ℕ × α) :
    ∀ l : List (ℕ × α),
      l.Pairwise (fun a b => le a.2 b.2 = true ∧ (le b.2 a.2 = true → a.1 < b.1)) →
      (∀ y ∈ l, y.1 < x.1) →
      (stableInsert le x l).Pairwise
        (fun a b => le a.2 b.2 = true ∧ (le b.2 a.2 = true → a.1 < b.1)) := by
  intro l
  induction l with
  | nil => intro _ _; simp [stableInsert]
  | cons y ys ih =>
      intro hl hx
      rw [stableInsert]
      rcases List.pairwise_cons.mp hl with ⟨hy, hys⟩
      by_cases h : le y.2 x.2
      · rw [if_pos h]
        refine List.pairwise_cons.mpr
          ⟨?_, ih hys (fun z hz => hx z (List.mem_cons_of_mem y hz))⟩
        intro z hz
        have hz' : z = x ∨ z ∈ ys := by
          simpa using (stableInsert_perm le x ys).mem_iff.mp hz
        rcases hz' with rfl | hz'
        · exact ⟨h, fun _ => hx y (List.mem_cons_self y ys)⟩
        · exact hy z hz'
      · rw [if_neg h]
        have hxy : le x.2 y.2 = true := by
          rcases htot x.2 y.2 with h' | h'
          · exact h'
          · exact absurd h' h
        refine List.pairwise_cons.mpr ⟨?_, hl⟩
        intro z hz
        rcases List.mem_cons.mp hz with rfl | hz'
        · exact ⟨hxy, fun hyx => absurd hyx h⟩
        · have hyz := (hy z hz').1
          exact ⟨htrans _ _ _ hxy hyz,
            fun hzx => absurd (htrans _ _ _ hyz hzx) h⟩

/-- The insertion fold yields a sorted and stable pair list, provided the
inputs arrive in strictly increasing index order. -/
lemma sortPairs_foldl_pairwise {α : Type} (le : α → α → Bool)
    (htrans : ∀ a b c, le a b = true → le b c = true → le a c = true)
    (htot : ∀ a b, le a b = true ∨ le b a = true) :
    ∀ (l acc : List (ℕ × α)),
      l.Pairwise (fun a b => a.1 < b.1) →
      acc.Pairwise (fun a b => le a.2 b.2 = true ∧ (le b.2 a.2 = true → a.1 < b.1)) →
      (∀ y ∈ acc, ∀ x ∈ l, y.1 < x.1) →
      (l.foldl (fun acc x => stableInsert le x acc) acc).Pairwise
        (fun a b => le a.2 b.2 = true ∧ (le b.2 a.2 = true → a.1 < b.1)) := by
  intro l
  induction l with
  | nil => intro acc _ hacc _; simpa using hacc
  | cons x xs ih =>
      intro acc hl hacc hcross
      simp only [List.foldl_cons]
      rcases List.pairwise_cons.mp hl with ⟨hxxs, hxs⟩
      refine ih (stableInsert le x acc) hxs
        (stableInsert_pairwise le htrans htot x acc hacc
          (fun y hy => hcross y hy x (List.mem_cons_self x xs))) ?_
      intro y hy z hz
      have hy' : y = x ∨ y ∈ acc := by
        simpa using (stableInsert_perm le x acc).mem_iff.mp hy
      rcases hy' with rfl | hy'
      · exact hxxs z hz
      · exact hcross y hy' z (List.mem_cons_of_mem x hz)

/-- The enumerated input has strictly increasing indices. -/
lemma enum_pairwise_fst {α : Type} (keys : List α) :
    keys.enum.Pairwise (fun a b => a.1 < b.1) := by
  have h : (keys.enum.map Prod.fst).Pairwise (fun a b : ℕ => a < b) := by
    rw [List.enum_map_fst]
    exact List.pairwise_lt_range _
  exact List.pairwise_map.mp h

/-- The stable sort of the enumerated keys is sorted by key and stable by
index. -/
lemma sortPairs_enum_pairwise {α : Type} (le : α → α → Bool)
    (htrans : ∀ a b c, le a b = true → le b c = true → le a c = true)
    (htot : ∀ a b, le a b = true ∨ le b a = true) (keys : List α) :
    (sortPairs le keys.enum).Pairwise
      (fun a b => le a.2 b.2 = true ∧ (le b.2 a.2 = true → a.1 < b.1)) := by
  exact sortPairs_foldl_pairwise le htrans htot keys.enum []
    (enum_pairwise_fst keys) (by simp) (by simp)

/-- Every pair surviving the stable sort of the enumerated keys carries the
key stored at its index. -/
lemma sortPairs_enum_lookup {α : Type} (le : α → α → Bool) (keys : List α)
    (x : ℕ × α) (hx : x ∈ sortPairs le keys.enum) : keys[x.1]? = some x.2 :=
  List.mem_enum_iff_getElem?.mp ((sortPairs_perm le keys.enum).mem_iff.mp hx)

/-! ## BFS soundness -/

/-- The neighbour-enqueueing fold of `bfsRun` appends the not-yet-visited
neighbours (first occurrences only, in adjacency order) to the queue and
marks exactly those as visited. -/
lemma enqueue_fold : ∀ (nbs q : List ℕ) (vis : Finset ℕ),
    ∃ new : List ℕ,
      (nbs.foldl (fun pr nb => if nb ∈ pr.2 then pr else (pr.1 ++ [nb], insert nb pr.2))
          (q, vis)).1 = q ++ new
      ∧ (nbs.foldl (fun pr nb => if nb ∈ pr.2 then pr else (pr.1 ++ [nb], insert nb pr.2))
          (q, vis)).2 = vis ∪ new.toFinset
      ∧ new.Nodup
      ∧ (∀ x ∈ new, x ∉ vis ∧ x ∈ nbs) := by
  intro nbs
  induction nbs with
  | nil =>
      intro q vis
      exact ⟨[], by simp, by simp, List.nodup_nil, by simp⟩
  | cons nb nbs ih =>
      intro q vis
      simp only [List.foldl_cons]
      by_cases h : nb ∈ vis
      · rw [if_pos h]
        obtain ⟨new, h1, h2, h3, h4⟩ := ih q vis
        exact ⟨new, h1, h2, h3,
          fun x hx => ⟨(h4 x hx).1, List.mem_cons_of_mem _ (h4 x hx).2⟩⟩
      · rw [if_neg h]
        obtain ⟨new, h1, h2, h3, h4⟩ := ih (q ++ [nb]) (insert nb vis)
        refine ⟨nb :: new, ?_, ?_, ?_, ?_⟩
        · rw [h1, List.append_assoc]
          rfl
        · rw [h2]
          ext a
          simp only [Finset.mem_union, Finset.mem_insert, List.mem_toFinset,
            List.mem_cons]
          tauto
        · exact List.nodup_cons.mpr
            ⟨fun hmem => (h4 nb hmem).1 (Finset.mem_insert_self nb vis), h3⟩
        · intro x hx
          rcases List.mem_cons.mp hx with rfl | hx'
          · exact ⟨h, List.mem_cons_self x nbs⟩
          · exact ⟨fun hxv => (h4 x hx').1 (Finset.mem_insert_of_mem hxv),
              List.mem_cons_of_mem _ (h4 x hx').2⟩

/-- Soundness of the fuel-indexed BFS: with fuel exceeding the measure
`|seeds| + |queue| + |unvisited universe|`, the result is duplicate-free,
stays inside the universe `U`, and contains every visited node and every
seed.  `U` is any finite superset of the seeds, the visited set and all
adjacency values. -/
lemma bfsRun_sound (adj : ℕ → List ℕ) (U : Finset ℕ)
    (hadj : ∀ c x, x ∈ adj c → x ∈ U) :
    ∀ (f : ℕ) (seeds queue : List ℕ) (vis : Finset ℕ) (acc : List ℕ),
      seeds.length + queue.length + (U \ vis).card < f →
      (∀ s ∈ seeds, s ∈ U) →
      queue.Nodup → acc.Nodup →
      (∀ x ∈ queue, x ∉ acc) →
      (∀ x, x ∈ vis ↔ (x ∈ acc ∨ x ∈ queue)) →
      (∀ x ∈ vis, x ∈ U) →
      (bfsRun adj f seeds queue vis acc).Nodup
      ∧ (∀ x ∈ bfsRun adj f seeds queue vis acc, x ∈ U)
      ∧ (∀ x ∈ vis, x ∈ bfsRun adj f seeds queue vis acc)
      ∧ (∀ s ∈ seeds, s ∈ bfsRun adj f seeds queue vis acc) := by
  intro f
  induction f with
  | zero =>
      intro seeds queue vis acc hm
      exact absurd hm (Nat.not_lt_zero _)
  | succ f ih =>
      intro seeds queue vis acc hm hseeds hqnd hand hqa hvis hvisU
      cases queue with
      | nil =>
          cases seeds with
          | nil =>
              simp only [bfsRun]
              refine ⟨List.nodup_reverse.mpr hand, ?_, ?_, by simp⟩
              · intro x hx
                rw [List.mem_reverse] at hx
                exact hvisU x ((hvis x).mpr (Or.inl hx))
              · intro x hx
                rcases (hvis x).mp hx with h | h
                · exact List.mem_reverse.mpr h
                · simp at h
          | cons s rest =>
              simp only [bfsRun]
              by_cases hs : s ∈ vis
              · rw [if_pos hs]
                have hm' : rest.length + ([] : List ℕ).length + (U \ vis).card < f := by
                  simp only [List.length_cons, List.length_nil] at hm ⊢
                  omega
                have hrec := ih rest [] vis acc hm'
                  (fun t ht => hseeds t (List.mem_cons_of_mem s ht))
                  List.nodup_nil hand (by simp) hvis hvisU
                refine ⟨hrec.1, hrec.2.1, hrec.2.2.1, ?_⟩
                intro t ht
                rcases List.mem_cons.mp ht with rfl | ht'
                · exact hrec.2.2.1 t hs
                · exact hrec.2.2.2 t ht'
              · rw [if_neg hs]
                have hsU : s ∈ U := hseeds s (List.mem_cons_self s rest)
                have hsdiff : s ∈ U \ vis := Finset.mem_sdiff.mpr ⟨hsU, hs⟩
                have hcard : (U \ insert s vis).card = (U \ vis).card - 1 := by
                  rw [show U \ insert s vis = (U \ vis).erase s by
                    ext a
                    simp only [Finset.mem_sdiff, Finset.mem_insert,
                      Finset.mem_erase]
                    tauto]
                  exact Finset.card_erase_of_mem hsdiff
                have hcardpos : 0 < (U \ vis).card := Finset.card_pos.mpr ⟨s, hsdiff⟩
                have hm' : rest.length + [s].length + (U \ insert s vis).card < f := by
                  simp only [List.length_cons, List.length_nil,
                    List.length_singleton] at hm ⊢
                  omega
                have hrec := ih rest [s] (insert s vis) acc hm'
                  (fun t ht => hseeds t (List.mem_cons_of_mem s ht))
                  (List.nodup_singleton s) hand
                  (fun x hx => by
                    rw [List.mem_singleton] at hx
                    subst hx
                    intro hxacc
                    exact hs ((hvis x).mpr (Or.inl hxacc)))
                  (fun x => by
                    have := hvis x
                    simp only [Finset.mem_insert, List.mem_singleton,
                      List.not_mem_nil, or_false] at this ⊢
                    rw [this]
                    tauto)
                  (fun x hx => by
                    rcases Finset.mem_insert.mp hx with rfl | hx'
                    · exact hsU
                    · exact hvisU x hx')
                refine ⟨hrec.1, hrec.2.1, ?_, ?_⟩
                · intro x hx
                  exact hrec.2.2.1 x (Finset.mem_insert_of_mem hx)
                · intro t ht
                  rcases List.mem_cons.mp ht with rfl | ht'
                  · exact hrec.2.2.1 t (Finset.mem_insert_self t vis)
                  · exact hrec.2.2.2 t ht'
      | cons c q =>
          simp only [bfsRun]
          obtain ⟨new, h1, h2, h3, h4⟩ := enqueue_fold (adj c) q vis
          rw [h1, h2]
          have hcq_nodup := List.nodup_cons.mp hqnd
          have hcin : c ∈ vis := (hvis c).mpr (Or.inr (List.mem_cons_self c q))
          have hnewU : ∀ x ∈ new, x ∈ U := fun x hx => hadj c x (h4 x hx).2
          have hnotvis : ∀ x ∈ new, x ∉ vis := fun x hx => (h4 x hx).1
          have hsub : new.toFinset ⊆ U \ vis := by
            intro x hx
            rw [List.mem_toFinset] at hx
            exact Finset.mem_sdiff.mpr ⟨hnewU x hx, hnotvis x hx⟩
          have hcard : (U \ (vis ∪ new.toFinset)).card
              = (U \ vis).card - new.length := by
            rw [show U \ (vis ∪ new.toFinset) = (U \ vis) \ new.toFinset by
              ext a
              simp only [Finset.mem_sdiff, Finset.mem_union]
              tauto]
            rw [Finset.card_sdiff hsub, List.toFinset_card_of_nodup h3]
          have hlen : new.length ≤ (U \ vis).card := by
            rw [← List.toFinset_card_of_nodup h3]
            exact Finset.card_le_card hsub
          have hm' : seeds.length + (q ++ new).length
              + (U \ (vis ∪ new.toFinset)).card < f := by
            rw [List.length_append, hcard]
            simp only [List.length_cons] at hm
            omega
          have hqnd' : (q ++ new).Nodup := by
            refine List.Nodup.append hcq_nodup.2 h3 ?_
            rw [List.disjoint_left]
            intro x hxq hxnew
            exact hnotvis x hxnew ((hvis x).mpr (Or.inr (List.mem_cons_of_mem c hxq)))
          have hand' : (c :: acc).Nodup :=
            List.nodup_cons.mpr ⟨hqa c (List.mem_cons_self c q), hand⟩
          have hqa' : ∀ x ∈ q ++ new, x ∉ c :: acc := by
            intro x hx
            rcases List.mem_append.mp hx with hxq | hxnew
            · intro hmem
              rcases List.mem_cons.mp hmem with rfl | hxacc
              · exact hcq_nodup.1 hxq
              · exact hqa x (List.mem_cons_of_mem c hxq) hxacc
            · intro hmem
              rcases List.mem_cons.mp hmem with rfl | hxacc
              · exact hnotvis x hxnew hcin
              · exact hnotvis x hxnew ((hvis x).mpr (Or.inl hxacc))
          have hvis' : ∀ x, x ∈ vis ∪ new.toFinset
              ↔ (x ∈ c :: acc ∨ x ∈ q ++ new) := by
            intro x
            have := hvis x
            simp only [Finset.mem_union, List.mem_toFinset, List.mem_cons,
              List.mem_append] at this ⊢
            rw [this]
            tauto
          have hvisU' : ∀ x ∈ vis ∪ new.toFinset, x ∈ U := by
            intro x hx
            rcases Finset.mem_union.mp hx with hx' | hx'
            · exact hvisU x hx'
            · exact hnewU x (List.mem_toFinset.mp hx')
          have hrec := ih seeds (q ++ new) (vis ∪ new.toFinset) (c :: acc)
            hm' hseeds hqnd' hand' hqa' hvis' hvisU'
          refine ⟨hrec.1, hrec.2.1, ?_, hrec.2.2.2⟩
          intro x hx
          exact hrec.2.2.1 x (Finset.mem_union_left _ hx)

/-- Every adjacency value is the destination of some edge. -/
lemma mem_buildAdjacency {edges : List (ℕ × ℕ)} {c x : ℕ}
    (hx : x ∈ buildAdjacency edges c) : ∃ e ∈ edges, e.2 = x := by
  unfold buildAdjacency at hx
  rw [buildAdjacency_foldl] at hx
  simp only [List.nil_append] at hx
  obtain ⟨e, he, hex⟩ := List.mem_map.mp hx
  exact ⟨e, List.mem_of_mem_filter he, hex⟩

/-- The BFS sequencer returns a permutation of `[0, N)` whenever all edge
endpoints are in range. -/
lemma sort_nodes_and_edges_bfs_perm (pos : List (ℚ × ℚ × ℚ)) (edges : List (ℕ × ℕ))
    (hE : ∀ e ∈ edges, e.1 < pos.length ∧ e.2 < pos.length) :
    (sort_nodes_and_edges_bfs pos edges).Perm (List.range pos.length) := by
  have hperm : (stableArgsortBy qleB (pos.map sqNorm)).Perm (List.range pos.length) := by
    have := stableArgsortBy_perm qleB (pos.map sqNorm)
    rwa [List.length_map] at this
  have hseedmem : ∀ s ∈ stableArgsortBy qleB (pos.map sqNorm),
      s ∈ Finset.range pos.length := by
    intro s hs
    rw [Finset.mem_range]
    exact List.mem_range.mp (hperm.mem_iff.mp hs)
  have hadj : ∀ c x, x ∈ buildAdjacency edges c → x ∈ Finset.range pos.length := by
    intro c x hx
    obtain ⟨e, he, hex⟩ := mem_buildAdjacency hx
    rw [Finset.mem_range, ← hex]
    exact (hE e he).2
  have hseedlen : (stableArgsortBy qleB (pos.map sqNorm)).length = pos.length := by
    rw [hperm.length_eq, List.length_range]
  have hm : (stableArgsortBy qleB (pos.map sqNorm)).length + ([] : List ℕ).length
      + (Finset.range pos.length \ ∅).card < 2 * pos.length + edges.length + 1 := by
    rw [hseedlen]
    simp only [List.length_nil, Finset.sdiff_empty, Finset.card_range]
    omega
  have hmain := bfsRun_sound (buildAdjacency edges) (Finset.range pos.length) hadj
    (2 * pos.length + edges.length + 1)
    (stableArgsortBy qleB (pos.map sqNorm)) [] ∅ [] hm hseedmem
    List.nodup_nil List.nodup_nil (by simp) (by simp) (by simp)
  show (bfsRun (buildAdjacency edges) (2 * pos.length + edges.length + 1)
    (stableArgsortBy qleB (pos.map sqNorm)) [] ∅ []).Perm (List.range pos.length)
  refine List.perm_of_nodup_nodup_toFinset_eq hmain.1 (List.nodup_range _) ?_
  ext a
  simp only [List.mem_toFinset, List.mem_range]
  constructor
  · intro ha
    exact Finset.mem_range.mp (hmain.2.1 a ha)
  · intro ha
    exact hmain.2.2.2 a (hperm.mem_iff.mpr (List.mem_range.mpr ha))

/-! ## Claims -/

/-- C9 (counterexample): `get_gridX` with a zero dimension returns an empty
grid instead of failing: `torch.arange 0` is empty, the meshgrid of an empty
axis is empty, and no error of any kind (in particular no
`InvalidGridSizeError`, which does not exist in the source) is raised. -/
theorem c9_counterexample : gridXPhi (22/7) 0 2 = [] := rfl

/-- C9 (amended): for `W = 0` or `H = 0` the grid generator returns an empty
grid (no entries at all) rather than failing; the source performs no
dimension validation. -/
theorem c9_amended : ∀ (p : ℚ) (w h : ℕ),
    gridXPhi p 0 h = [] ∧ gridXPhi p w 0 = [] := by
  intro p w h
  constructor
  · rfl
  · simp [gridXPhi]

/-- C8 (counterexample): the claim puts the grid x-coordinates in `(-1, 1]`,
but the very first grid point of a 2×2 grid has `x = 2·(0/2) - 1 = -1`,
which is not greater than `-1`; the attained x-range is `[-1, 1)`. -/
theorem c8_counterexample :
    ((-1 : ℚ), -(22/7 : ℚ)) ∈ gridXPhi (22/7) 2 2 ∧ ¬ ((-1 : ℚ) < -1) := by
  refine ⟨?_, lt_irrefl _⟩
  simp only [gridXPhi, show List.range 2 = [0, 1] from rfl]
  norm_num

/-- C8 (amended): for every positive `p` (standing for `np.pi`) and every
grid point of `get_gridX`, the x-coordinate lies in `[-1, 1)` (the lower
end closed, the upper end open) and the azimuth lies in `[-p, p)`:
`u = i/W ∈ [0, 1)` gives `x = 2u - 1 ∈ [-1, 1)` and likewise for `φ`. -/
theorem c8_amended (p : ℚ) (w h : ℕ) (hp : 0 < p) :
    ∀ xy ∈ gridXPhi p w h,
      -1 ≤ xy.1 ∧ xy.1 < 1 ∧ -p ≤ xy.2 ∧ xy.2 < p := by
  intro xy hxy
  unfold gridXPhi at hxy
  obtain ⟨i, hi, hxy2⟩ := List.mem_flatMap.mp hxy
  obtain ⟨j, hj, hxyeq⟩ := List.mem_map.mp hxy2
  rw [List.mem_range] at hi hj
  subst hxyeq
  have hw : (0:ℚ) < (w:ℚ) := by
    exact_mod_cast lt_of_le_of_lt (Nat.zero_le i) hi
  have hh : (0:ℚ) < (h:ℚ) := by
    exact_mod_cast lt_of_le_of_lt (Nat.zero_le j) hj
  have hi0 : (0:ℚ) ≤ (i:ℚ) / (w:ℚ) := div_nonneg (by positivity) hw.le
  have hi1 : (i:ℚ) / (w:ℚ) < 1 := (div_lt_one hw).mpr (by exact_mod_cast hi)
  have hj0 : (0:ℚ) ≤ (j:ℚ) / (h:ℚ) := div_nonneg (by positivity) hh.le
  have hj1 : (j:ℚ) / (h:ℚ) < 1 := (div_lt_one hh).mpr (by exact_mod_cast hj)
  refine ⟨by linarith, by linarith, ?_, ?_⟩
  · nlinarith
  · nlinarith

/-- C8 amended claim witness at `p = 22/7`, `W = H = 2`: the grid point
`(-1, -22/7)` is produced and satisfies the amended bounds. -/
theorem c8_amended_witness :
    (0 : ℚ) < 22/7 ∧
      (-1 ≤ ((-1 : ℚ), -(22/7 : ℚ)).1 ∧ ((-1 : ℚ), -(22/7 : ℚ)).1 < 1 ∧
        -(22/7 : ℚ) ≤ ((-1 : ℚ), -(22/7 : ℚ)).2 ∧ ((-1 : ℚ), -(22/7 : ℚ)).2 < 22/7) := by
  have hp : (0 : ℚ) < 22/7 := by norm_num
  have hmem : ((-1 : ℚ), -(22/7 : ℚ)) ∈ gridXPhi (22/7) 2 2 := by
    simp only [gridXPhi, show List.range 2 = [0, 1] from rfl]
    norm_num
  exact ⟨hp, c8_amended (22/7) 2 2 hp _ hmem⟩

/-- C5 (counterexample): with `N = 3` nodes and the single out-of-range edge
`(5, 7)`, building the adjacency does not fail with `InvalidEdgeError`
(no such error exists in the source): the `defaultdict` loop accepts the
edge and produces the mapping `5 ↦ [7]`. -/
theorem c5_counterexample : buildAdjacency [(5, 7)] 5 = [7] := rfl

/-- C5 (amended): adjacency building performs no id validation at all and
never fails: for every edge list (in-range or not) it is the total map
sending each source id to the list of destination ids of its outgoing
edges, in edge-list order with duplicates preserved. -/
theorem c5_amended : ∀ (edges : List (ℕ × ℕ)) (s : ℕ),
    buildAdjacency edges s = (edges.filter (fun e => e.1 == s)).map Prod.snd := by
  intro edges s
  unfold buildAdjacency
  rw [buildAdjacency_foldl]
  simp

/-- Concrete evaluation shared by several claims: one sample with `x = 0`
and raw azimuth `π/2` (with `355/113` standing for `π`), histogrammed with
`sizeX = 1`, `sizePhi = 2`, lands in φ-bin 0 under the source's offset
binning. -/
lemma rayCounts_halfPi : rayCounts (355/113) 1 2 [(0, 355/226)] = [1, 0] := by
  simp only [rayCounts, hist2d, linEdges,
    show List.range 2 = [0, 1] from rfl, show List.range 1 = [0] from rfl,
    show List.range 3 = [0, 1, 2] from rfl, List.map_cons, List.map_nil,
    List.flatMap_cons, List.flatMap_nil]
  norm_num [findBin]

/-- C2 (counterexample): a single sample whose raw field-1 azimuth is `π/2`
(with `355/113` standing for `π`, sizes `1 × 2`): the code offsets it to
`-π/2` and counts it in φ-bin 0, whereas binning the raw field-1 value, as
the claim states, would count it in φ-bin 1.  The two histograms differ. -/
theorem c2_counterexample :
    rayCounts (355/113) 1 2 [(0, 355/226)] = [1, 0]
    ∧ rayCountsSpecRaw (355/113) 1 2 [(0, 355/226)] = [0, 1] := by
  refine ⟨rayCounts_halfPi, ?_⟩
  simp only [rayCountsSpecRaw, hist2d, linEdges,
    show List.range 2 = [0, 1] from rfl, show List.range 1 = [0] from rfl,
    show List.range 3 = [0, 1, 2] from rfl, List.map_cons, List.map_nil,
    List.flatMap_cons, List.flatMap_nil]
  norm_num [findBin]

/-- C2 (amended): the 2-D histogram of `load_rawdata` bins the pair
`(x, field1 - π)` — the offset azimuth, the same value later used to
reconstruct the direction — not the raw field-1 value; equivalently, its
φ-axis bins the raw field-1 azimuth against edges spanning `[0, 2π]`
instead of `[-π, π]`. -/
theorem c2_amended : ∀ (p : ℚ) (sX sPhi : ℕ) (samples : List (ℚ × ℚ)),
    rayCounts p sX sPhi samples
      = rayCountsSpecRaw p sX sPhi (samples.map (fun s => (s.1, s.2 - p)))
    ∧ ∀ v : ℚ, findBin (linEdges (-p) p sPhi) (v - p)
        = findBin (linEdges 0 (2 * p) sPhi) v := by
  intro p sX sPhi samples
  refine ⟨rfl, fun v => ?_⟩
  rw [linEdges_shift, show v - p = v + (-p) from sub_eq_add_neg v p,
    findBin_shift (-p) (linEdges 0 (2 * p) sPhi) v]

/-- C1: for every sample set whose total histogram count is positive (and
any positive stand-in for `np.pi` and nonzero grid sizes), the normalized
histogram returned by `load_rawdata` integrates to exactly 1: summing
`bin_value * 4π/(sizeX*sizePhi)` over all bins gives 1 (exact in the
rational model, hence within every floating tolerance). -/
theorem c1_histogram_normalization (p : ℚ) (sX sPhi : ℕ) (samples : List (ℚ × ℚ))
    (hp : 0 < p) (hX : 1 ≤ sX) (hPhi : 1 ≤ sPhi)
    (htot : 0 < (rayCounts p sX sPhi samples).sum) :
    qfSum ((rayDataNorm p sX sPhi samples).map
      (fun r => qfMul r (QF.fin (4 * p / ((sX : ℚ) * (sPhi : ℚ)))))) = QF.fin 1 := by
  set H := rayCounts p sX sPhi samples with hHdef
  set T : ℚ := (H.map (fun (h : ℕ) => (h : ℚ))).sum with hTdef
  have hcast : T = (H.sum : ℚ) := by
    rw [hTdef]
    exact_mod_cast (Nat.cast_list_sum H).symm
  have hTpos : 0 < T := by rw [hcast]; exact_mod_cast htot
  have hTne : T ≠ 0 := ne_of_gt hTpos
  have hsX : (0:ℚ) < (sX : ℚ) := by
    exact_mod_cast Nat.lt_of_lt_of_le Nat.zero_lt_one hX
  have hsPhi : (0:ℚ) < (sPhi : ℚ) := by
    exact_mod_cast Nat.lt_of_lt_of_le Nat.zero_lt_one hPhi
  have hA : (4 * p / ((sX : ℚ) * (sPhi : ℚ))) ≠ 0 :=
    ne_of_gt (div_pos (by linarith) (mul_pos hsX hsPhi))
  have hfun : ∀ h : ℕ,
      qfMul (qfDiv (qfDiv (.fin (h : ℚ)) (.fin T)) (.fin (4 * p / ((sX : ℚ) * (sPhi : ℚ)))))
          (QF.fin (4 * p / ((sX : ℚ) * (sPhi : ℚ))))
        = QF.fin ((h : ℚ) / T) := by
    intro h
    rw [qfDiv_fin_fin _ _ hTne, qfDiv_fin_fin _ _ hA]
    show QF.fin ((h : ℚ) / T / (4 * p / ((sX : ℚ) * (sPhi : ℚ)))
      * (4 * p / ((sX : ℚ) * (sPhi : ℚ)))) = _
    rw [div_mul_cancel₀ _ hA]
  calc qfSum ((rayDataNorm p sX sPhi samples).map
        (fun r => qfMul r (QF.fin (4 * p / ((sX : ℚ) * (sPhi : ℚ))))))
      = qfSum (H.map (fun (h : ℕ) => QF.fin ((h : ℚ) / T))) := by
        simp only [rayDataNorm, ← hHdef, ← hTdef, List.map_map]
        exact congrArg qfSum (List.map_congr_left (fun h _ => hfun h))
    _ = QF.fin ((H.map (fun (h : ℕ) => (h : ℚ) / T)).sum) := qfSum_map_fin _ H
    _ = QF.fin 1 := by
        have hs : (H.map (fun (h : ℕ) => (h : ℚ) / T)).sum = T * T⁻¹ := by
          simp only [div_eq_mul_inv]
          rw [List.sum_map_mul_right, ← hTdef]
        rw [hs, mul_inv_cancel₀ hTne]

/-- C1 witness: the single-sample set of `rayCounts_halfPi` at
`p = 355/113`, `sizeX = 1`, `sizePhi = 2` has total count 1 > 0, and the
normalized histogram sums (against the bin solid angle) to exactly 1. -/
theorem c1_histogram_normalization_witness :
    ((0:ℚ) < 355/113 ∧ 1 ≤ 1 ∧ 1 ≤ 2 ∧
      0 < (rayCounts (355/113) 1 2 [(0, 355/226)]).sum) ∧
    qfSum ((rayDataNorm (355/113) 1 2 [(0, 355/226)]).map
      (fun r => qfMul r (QF.fin (4 * (355/113) / ((1 : ℚ) * (2 : ℚ)))))) = QF.fin 1 := by
  have hsum : 0 < (rayCounts (355/113) 1 2 [(0, 355/226)]).sum := by
    rw [rayCounts_halfPi]
    decide
  refine ⟨⟨by norm_num, le_refl 1, by norm_num, hsum⟩, ?_⟩
  have := c1_histogram_normalization (355/113) 1 2 [(0, 355/226)]
    (by norm_num) (le_refl 1) (by norm_num) hsum
  simpa using this

/-- `nan` absorbs on the left of `qfDiv`. -/
lemma qfDiv_nan_left (x : QF) : qfDiv .nan x = .nan := by
  cases x <;> rfl

/-- `nan` absorbs on the left of `qfMul`. -/
lemma qfMul_nan_left (x : QF) : qfMul .nan x = .nan := by
  cases x <;> rfl

/-- C10: when no parsed sample falls inside the histogram range (total bin
count 0 — in particular for an empty file), `load_rawdata` does not raise:
the unguarded division by the zero total makes every returned histogram
entry `NaN` (the list still has its full `sizeX*sizePhi` length), the
normalization invariant of C1 cannot hold (the weighted sum is not 1), and
the subsample of an empty input has `min(8192, 0) = 0` rows. -/
theorem c10_zero_total (p : ℚ) (sX sPhi : ℕ) (samples : List (ℚ × ℚ))
    (htot : (rayCounts p sX sPhi samples).sum = 0) :
    (∀ r ∈ rayDataNorm p sX sPhi samples, r = QF.nan)
    ∧ (rayDataNorm p sX sPhi samples).length = sX * sPhi
    ∧ qfSum ((rayDataNorm p sX sPhi samples).map
        (fun r => qfMul r (QF.fin (4 * p / ((sX : ℚ) * (sPhi : ℚ)))))) ≠ QF.fin 1
    ∧ subsampleLen 0 = 0 := by
  have hzero : ∀ h ∈ rayCounts p sX sPhi samples, h = 0 :=
    List.sum_eq_zero_iff.mp htot
  have hT : ((rayCounts p sX sPhi samples).map (fun (h : ℕ) => (h : ℚ))).sum = 0 := by
    have h1 : ((rayCounts p sX sPhi samples).map (fun (h : ℕ) => (h : ℚ))).sum
        = ((rayCounts p sX sPhi samples).sum : ℚ) := by
      exact_mod_cast (Nat.cast_list_sum (rayCounts p sX sPhi samples)).symm
    rw [h1, htot, Nat.cast_zero]
  have hnan : ∀ r ∈ rayDataNorm p sX sPhi samples, r = QF.nan := by
    intro r hr
    simp only [rayDataNorm, hT, List.mem_map] at hr
    obtain ⟨h, hh, req⟩ := hr
    rw [hzero h hh] at req
    rw [← req]
    rw [show ((0 : ℕ) : ℚ) = 0 from Nat.cast_zero]
    rw [show qfDiv (QF.fin 0) (QF.fin 0) = QF.nan by simp [qfDiv]]
    exact qfDiv_nan_left _
  refine ⟨hnan, ?_, ?_, rfl⟩
  · simp only [rayDataNorm, List.length_map]
    exact hist2d_length p sX sPhi _
  · intro hcontra
    set L := (rayDataNorm p sX sPhi samples).map
      (fun r => qfMul r (QF.fin (4 * p / ((sX : ℚ) * (sPhi : ℚ))))) with hLdef
    have hallnan : ∀ r ∈ L, r = QF.nan := by
      intro r hr
      obtain ⟨r', hr', req⟩ := List.mem_map.mp hr
      rw [hnan r' hr'] at req
      rw [← req]
      exact qfMul_nan_left _
    by_cases hnil : L = []
    · rw [hnil] at hcontra
      simp [qfSum] at hcontra
    · rw [qfSum_all_nan L hnil hallnan] at hcontra
      exact QF.noConfusion hcontra

/-- C3: both sequencers return a bijection over `[0, N)`: the BFS sequencer
for every position list and every edge list with in-range endpoints, and
the spherical-lexicographic sequencer for every position list and every
comparator.  (For the BFS sequencer, tie order inside the distance ranking
does not matter for this property: any argsort output is a permutation.) -/
theorem c3_permutation_validity :
    (∀ (pos : List (ℚ × ℚ × ℚ)) (edges : List (ℕ × ℕ)),
        (∀ e ∈ edges, e.1 < pos.length ∧ e.2 < pos.length) →
        (sort_nodes_and_edges_bfs pos edges).Perm (List.range pos.length))
    ∧ ∀ (le : ℝ × ℝ × ℝ → ℝ × ℝ × ℝ → Bool) (pos : List (ℝ × ℝ × ℝ)),
        (sort_nodes_and_edges le pos).Perm (List.range pos.length) := by
  constructor
  · exact sort_nodes_and_edges_bfs_perm
  · intro le pos
    show (stableArgsortBy le (pos.map sphericalKey)).Perm (List.range pos.length)
    have := stableArgsortBy_perm le (pos.map sphericalKey)
    rwa [List.length_map] at this

/-- C3 witness: the five-node scenario graph has in-range edges, and the
BFS sequencer's output is a permutation of `[0, 5)`; the lexicographic
sequencer (with the trivial comparator) also returns a permutation. -/
theorem c3_permutation_validity_witness :
    (∀ e ∈ ([(0,1),(1,2),(0,3),(3,4)] : List (ℕ × ℕ)),
        e.1 < ([(0,0,0),(1,0,0),(2,0,0),(0,1,0),(0,2,0)] : List (ℚ × ℚ × ℚ)).length
        ∧ e.2 < ([(0,0,0),(1,0,0),(2,0,0),(0,1,0),(0,2,0)] : List (ℚ × ℚ × ℚ)).length)
    ∧ (sort_nodes_and_edges_bfs [(0,0,0),(1,0,0),(2,0,0),(0,1,0),(0,2,0)]
        [(0,1),(1,2),(0,3),(3,4)]).Perm (List.range 5)
    ∧ (sort_nodes_and_edges (fun _ _ => true) []).Perm (List.range 0) := by
  have hE : ∀ e ∈ ([(0,1),(1,2),(0,3),(3,4)] : List (ℕ × ℕ)),
      e.1 < ([(0,0,0),(1,0,0),(2,0,0),(0,1,0),(0,2,0)] : List (ℚ × ℚ × ℚ)).length
      ∧ e.2 < ([(0,0,0),(1,0,0),(2,0,0),(0,1,0),(0,2,0)] : List (ℚ × ℚ × ℚ)).length := by
    intro e he
    fin_cases he <;> exact ⟨by decide, by decide⟩
  exact ⟨hE, c3_permutation_validity.1 _ _ hE, c3_permutation_validity.2 _ _⟩

/-- C6: on the concrete five-node scenario (positions
`(0,0,0), (1,0,0), (2,0,0), (0,1,0), (0,2,0)`, edges
`(0,1), (1,2), (0,3), (3,4)`), the BFS sequencer returns exactly
`[0, 1, 3, 2, 4]`: seeds rank `[0,1,3,2,4]` by distance (stable ties), and
the BFS from node 0 visits `0, 1, 3, 2, 4`. -/
theorem c6_bfs_scenario :
    sort_nodes_and_edges_bfs [(0,0,0),(1,0,0),(2,0,0),(0,1,0),(0,2,0)]
      [(0,1),(1,2),(0,3),(3,4)] = [0,1,3,2,4] := by
  have hkeys : ([(0,0,0),(1,0,0),(2,0,0),(0,1,0),(0,2,0)] :
      List (ℚ × ℚ × ℚ)).map sqNorm = [0,1,4,1,4] := by
    norm_num [sqNorm]
  simp only [sort_nodes_and_edges_bfs]
  rw [hkeys]
  decide

/-- Lexicographic key comparison is the lexicographic product order. -/
lemma lexLe3_iff (a b : ℝ × ℝ × ℝ) :
    lexLe3 a b
      ↔ toLex (a.1, toLex (a.2.1, a.2.2)) ≤ toLex (b.1, toLex (b.2.1, b.2.2)) := by
  simp only [lexLe3, Prod.Lex.le_iff]

/-- Lexicographic key comparison is transitive. -/
lemma lexLe3_trans (a b c : ℝ × ℝ × ℝ) :
    lexLe3 a b → lexLe3 b c → lexLe3 a c := by
  rw [lexLe3_iff, lexLe3_iff, lexLe3_iff]
  exact le_trans

/-- Lexicographic key comparison is total. -/
lemma lexLe3_total (a b : ℝ × ℝ × ℝ) : lexLe3 a b ∨ lexLe3 b a := by
  rw [lexLe3_iff, lexLe3_iff]
  exact le_total _ _

/-- C7: for every position list and every comparator agreeing with the real
lexicographic order on the spherical keys `(r, x, φ)`, any two nodes `i`
before `j` in the output of `sort_nodes_and_edges` (consecutive pairs in
particular) satisfy `(r_i, x_i, φ_i) ≤ (r_j, x_j, φ_j)` lexicographically,
and nodes with equal keys appear in their original id order (stability). -/
theorem c7_lex_order (le : ℝ × ℝ × ℝ → ℝ × ℝ × ℝ → Bool)
    (hle : ∀ a b, le a b = true ↔ lexLe3 a b) (pos : List (ℝ × ℝ × ℝ)) :
    (sort_nodes_and_edges le pos).Pairwise (fun i j =>
      lexLe3 (sphericalKey (pos.getD i (0,0,0))) (sphericalKey (pos.getD j (0,0,0)))
      ∧ (lexLe3 (sphericalKey (pos.getD j (0,0,0)))
          (sphericalKey (pos.getD i (0,0,0))) → i < j)) := by
  have htrans : ∀ a b c, le a b = true → le b c = true → le a c = true := by
    intro a b c hab hbc
    rw [hle] at hab hbc ⊢
    exact lexLe3_trans a b c hab hbc
  have htot : ∀ a b, le a b = true ∨ le b a = true := by
    intro a b
    rcases lexLe3_total a b with h | h
    · exact Or.inl ((hle a b).mpr h)
    · exact Or.inr ((hle b a).mpr h)
  have hpw := sortPairs_enum_pairwise le htrans htot (pos.map sphericalKey)
  have hget : ∀ x ∈ sortPairs le (pos.map sphericalKey).enum,
      sphericalKey (pos.getD x.1 (0,0,0)) = x.2 := by
    intro x hx
    have hk := sortPairs_enum_lookup le (pos.map sphericalKey) x hx
    rw [List.getElem?_map] at hk
    cases hpa : pos[x.1]? with
    | none => rw [hpa] at hk; simp at hk
    | some v =>
        rw [hpa] at hk
        simp only [Option.map_some'] at hk
        rw [List.getD_eq_getElem?_getD, hpa]
        simpa using hk
  show ((sortPairs le (pos.map sphericalKey).enum).map Prod.fst).Pairwise _
  rw [List.pairwise_map]
  refine List.Pairwise.imp_of_mem ?_ hpw
  intro a b ha hb hab
  have hga := hget a ha
  have hgb := hget b hb
  refine ⟨?_, ?_⟩
  · rw [hga, hgb]
    exact (hle _ _).mp hab.1
  · intro hba
    rw [hga, hgb] at hba
    exact hab.2 ((hle _ _).mpr hba)

/-- C7 witness: the classical comparator satisfies the agreement hypothesis,
so the theorem applies at the concrete two-point input
`[(0,2,0), (0,1,0)]` (keys `(2,0,0)` and `(1,0,0)`). -/
theorem c7_lex_order_witness :
    (∀ a b : ℝ × ℝ × ℝ,
        (fun x y : ℝ × ℝ × ℝ => @decide (lexLe3 x y) (Classical.propDecidable _)) a b
          = true ↔ lexLe3 a b)
    ∧ (sort_nodes_and_edges
        (fun x y : ℝ × ℝ × ℝ => @decide (lexLe3 x y) (Classical.propDecidable _))
        [(0,2,0), (0,1,0)]).Pairwise (fun i j =>
          lexLe3 (sphericalKey (([(0,2,0), (0,1,0)] : List (ℝ × ℝ × ℝ)).getD i (0,0,0)))
            (sphericalKey (([(0,2,0), (0,1,0)] : List (ℝ × ℝ × ℝ)).getD j (0,0,0)))
          ∧ (lexLe3 (sphericalKey (([(0,2,0), (0,1,0)] : List (ℝ × ℝ × ℝ)).getD j (0,0,0)))
              (sphericalKey (([(0,2,0), (0,1,0)] : List (ℝ × ℝ × ℝ)).getD i (0,0,0)))
            → i < j)) := by
  have hle : ∀ a b : ℝ × ℝ × ℝ,
      (fun x y : ℝ × ℝ × ℝ => @decide (lexLe3 x y) (Classical.propDecidable _)) a b
        = true ↔ lexLe3 a b := by
    intro a b
    exact ⟨fun h => @of_decide_eq_true _ (Classical.propDecidable _) h,
      fun h => @decide_eq_true _ (Classical.propDecidable _) h⟩
  exact ⟨hle, c7_lex_order _ hle _⟩

/-- C10 witness: the empty sample set (an empty raw file) with a 2×2 grid
at `p = 355/113` has total count 0; the theorem then gives all-NaN output
of length 4, a failed normalization identity, and an empty subsample. -/
theorem c10_zero_total_witness :
    (rayCounts (355/113) 2 2 []).sum = 0 ∧
    ((∀ r ∈ rayDataNorm (355/113) 2 2 [], r = QF.nan)
      ∧ (rayDataNorm (355/113) 2 2 []).length = 2 * 2
      ∧ qfSum ((rayDataNorm (355/113) 2 2 []).map
          (fun r => qfMul r (QF.fin (4 * (355/113) / ((2 : ℚ) * (2 : ℚ)))))) ≠ QF.fin 1
      ∧ subsampleLen 0 = 0) := by
  have htot : (rayCounts (355/113) 2 2 []).sum = 0 := by decide
  exact ⟨htot, c10_zero_total (355/113) 2 2 [] htot⟩

end GNNT
